import Mathlib

/- Verification development for the elinks incremental SGML parser
   (src/dom/sgml/parser.h) and the SEE form object implementation
   (src/ecmascript/see/form.c).

   The parser implementation file (parser.c) is not among the sources; only
   its public header with documentation comments is.  The parser model below
   is therefore built from the specification's description of the driver,
   the element stack, the parse-state stack and the incremental feeding
   contract.  The form object code is embedded directly from form.c. -/

set_option linter.unusedVariables false

namespace Elinks

/-- Modelled from the spec: the closed error taxonomy of section 7 together
with `enum dom_code` referenced by parser.h (dom/code.h is not among the
sources).  `ok` is DOM_CODE_OK. -/
inductive dom_code where
  | ok
  | unmatchedEndTag
  | malformedMarkup
  | unexpectedEndOfInput
  | allocationFailure
  | callbackAborted
  deriving DecidableEq, Repr

/-- Modelled from the spec: kinds of lexical tokens produced by the external
token source (tag names, text runs, comments).  Attribute tokens are folded
into the start-tag token since no claim concerns attributes. -/
inductive tok_kind where
  | text (content : List Char)
  | startTag (tname : List Char)
  | endTag (tname : List Char)
  | comment (content : List Char)
  deriving DecidableEq, Repr

/-- Modelled from the spec: a scanner token carrying its start position and
the line number at which it starts (both 0-based).  Line numbers are
recorded in the scanner tokens (parser.h, get_sgml_parser_line_number). -/
structure sgml_token where
  kind : tok_kind
  tpos : Nat
  tline : Nat
  deriving DecidableEq, Repr

/-- Number of newline characters in a character list. -/
def countNl (l : List Char) : Nat := l.countP (fun c => c = '\n')

/-- ASCII-style lowercasing of a name, for case-insensitive comparison. -/
def lowerName (n : List Char) : List Char := n.map Char.toLower

/-- The element name of a tag: the characters up to the first whitespace. -/
def tagNameOf (content : List Char) : List Char :=
  content.takeWhile (fun c => c ≠ ' ' ∧ c ≠ '\n' ∧ c ≠ '\t')

/-- Split a character list at the first '>' character. -/
def splitGt : List Char → Option (List Char × List Char)
  | [] => none
  | c :: r =>
    if c = '>' then some ([], r)
    else (splitGt r).map (fun p => (c :: p.1, p.2))

/-- Build a tag token from the characters between '<' and '>': a leading '/'
makes an end tag, a leading '!' a comment or declaration token, anything
else a start tag. -/
def mkTag (pos line : Nat) (content : List Char) : sgml_token :=
  match content with
  | '/' :: rest => ⟨tok_kind.endTag (tagNameOf rest), pos, line⟩
  | '!' :: rest => ⟨tok_kind.comment rest, pos, line⟩
  | _ => ⟨tok_kind.startTag (tagNameOf content), pos, line⟩

/-- Character test used to delimit text runs: anything but '<'. -/
def isNotLt (d : Char) : Bool := d ≠ '<'

/-- The leading text run of a buffer. -/
def txtOf (buf : List Char) : List Char := buf.takeWhile isNotLt

/-- What follows the leading text run of a buffer. -/
def restOf (buf : List Char) : List Char := buf.dropWhile isNotLt

/-- Modelled from the spec: one step of the external token source.  Returns
the next complete token, the position and line after it and the remaining
characters, or `none` when the buffer holds no complete token (mid-tag, or
a trailing text run that may still continue): those bytes are retained. -/
def scan1 (pos line : Nat) (buf : List Char) :
    Option (sgml_token × Nat × Nat × List Char) :=
  match buf with
  | [] => none
  | c :: r =>
    if c = '<' then
      match splitGt r with
      | none => none
      | some (content, rest) =>
        some (mkTag pos line content, pos + 2 + content.length,
              line + countNl content, rest)
    else
      if restOf buf = [] then none
      else some (⟨tok_kind.text (txtOf buf), pos, line⟩, pos + (txtOf buf).length,
                 line + countNl (txtOf buf), restOf buf)

/-- Result of scanning a buffer: complete tokens, the position and line at
which the retained remainder starts, and the retained remainder itself. -/
structure scan_res where
  toks : List sgml_token
  rpos : Nat
  rline : Nat
  rest : List Char
  deriving DecidableEq, Repr

/-- Fuel-indexed scanner loop; the fuel is an upper bound on the number of
characters, hence on the number of tokens. -/
def scanAux : Nat → Nat → Nat → List Char → scan_res
  | 0, pos, line, buf => ⟨[], pos, line, buf⟩
  | Nat.succ n, pos, line, buf =>
    match scan1 pos line buf with
    | none => ⟨[], pos, line, buf⟩
    | some (t, p, l, rest) =>
      let r := scanAux n p l rest
      ⟨t :: r.toks, r.rpos, r.rline, r.rest⟩

/-- Modelled from the spec: the token source run to exhaustion on a buffer.
Splits the buffer into the complete tokens it holds and the retained
partial trailing bytes. -/
def scan (pos line : Nat) (buf : List Char) : scan_res :=
  scanAux buf.length pos line buf

/-- Modelled from the spec: the node classifier's info record
(NodeInfo of section 6; struct sgml_node_info referenced by parser.h). -/
structure sgml_node_info where
  selfClosing : Bool
  rawText : Bool
  caseSensitive : Bool
  implicitClose : List (List Char)
  deriving DecidableEq, Repr

/-- The default info record for unknown names (section 6: unknown names
resolve to a default record rather than failing). -/
def unknownInfo : sgml_node_info := ⟨false, false, false, []⟩

/-- Modelled from the spec: a DOM node of the built tree (element, text or
comment; attribute nodes are not modelled since no claim concerns them). -/
inductive dom_node where
  | element (ename : List Char) (children : List dom_node)
  | text (content : List Char)
  | comment (content : List Char)
  deriving Repr

/-- One entry of the element stack: the open element's name, its classifier
info and (tree mode) its accumulated children, most recent first. -/
structure stack_frame where
  fname : List Char
  info : sgml_node_info
  children : List dom_node
  deriving Repr

/-- Structural events emitted in stream mode, stored most recent first. -/
inductive sgml_event where
  | elementOpen (ename : List Char) (line : Nat)
  | elementClose (ename : List Char)
  | textEvent (content : List Char) (line : Nat)
  | commentEvent (content : List Char) (line : Nat)
  deriving DecidableEq, Repr

/-- One invocation of the diagnostics callback: the code and the line. -/
structure error_record where
  ecode : dom_code
  eline : Nat
  deriving DecidableEq, Repr

/-- The flag set of enum sgml_parser_flag (parser.h).  SGML_PARSER_COMPLETE
is internal bookkeeping of the incremental mode and is represented by the
`complete` argument of parse_sgml. -/
structure sgml_parser_flags where
  countLines : Bool
  incremental : Bool
  detectErrors : Bool
  deriving DecidableEq, Repr

/-- External collaborators handed to the parser at creation: the node
classifier and the diagnostics callback (sgml_error_T of parser.h, with the
message represented by the code). -/
structure sgml_config where
  classify : List Char → sgml_node_info
  errorFunc : dom_code → Nat → dom_code

/-- Modelled from the spec: the driver-owned state of struct sgml_parser —
flags, latest code, element stack (top first, above the virtual root whose
children are `rootChildren`), parse-state stack, emitted events, reported
errors and the line of the most recently processed token. -/
structure sgml_parser_core where
  flags : sgml_parser_flags
  code : dom_code
  stack : List stack_frame
  rootChildren : List dom_node
  parsing : List (List Char)
  events : List sgml_event
  errors : List error_record
  lastLine : Option Nat
  deriving Repr

/-- Modelled from the spec: the whole parser instance; the driver state plus
the retained partial trailing bytes and the position and line at which they
start (the incremental contract of parse_sgml). -/
structure sgml_parser_full where
  core : sgml_parser_core
  pending : List Char
  pendPos : Nat
  pendLine : Nat
  deriving Repr

/-- Modelled from the spec: report a recoverable error.  When error
reporting is enabled the diagnostics callback runs; a non-OK return code
ends the parse with that code (sgml_error_T contract in parser.h). -/
def handleError (cfg : sgml_config) (s : sgml_parser_core) (c : dom_code)
    (l : Nat) : sgml_parser_core :=
  if s.code ≠ dom_code.ok then s
  else if s.flags.detectErrors then
    if cfg.errorFunc c l = dom_code.ok then { s with errors := ⟨c, l⟩ :: s.errors }
    else { s with code := cfg.errorFunc c l }
  else s

/-- Append a node to an accumulated child list (most recent first), merging
a text node into an immediately preceding text node (spec section 4.1,
text token dispatch). -/
def pushChild (children : List dom_node) (n : dom_node) : List dom_node :=
  match n, children with
  | dom_node.text t, dom_node.text t0 :: rest => dom_node.text (t0 ++ t) :: rest
  | _, _ => n :: children

/-- Append a node to the children of the current top (or to the virtual
root when the stack is empty). -/
def addChild (s : sgml_parser_core) (n : dom_node) : sgml_parser_core :=
  match s.stack with
  | [] => { s with rootChildren := pushChild s.rootChildren n }
  | f :: rest => { s with stack := { f with children := pushChild f.children n } :: rest }

/-- Modelled from the spec: pop the top frame, finalize its node, link it to
its parent, emit the element-close event, and pop the parse-state stack for
a mode-changing element. -/
def closeTop (s : sgml_parser_core) : sgml_parser_core :=
  match s.stack with
  | [] => s
  | f :: rest =>
    let s1 := { s with stack := rest,
                       events := sgml_event.elementClose f.fname :: s.events,
                       parsing := if f.info.rawText then s.parsing.tail else s.parsing }
    addChild s1 (dom_node.element f.fname f.children.reverse)

/-- Pop and close the given number of frames, top first. -/
def closeN : Nat → sgml_parser_core → sgml_parser_core
  | 0, s => s
  | Nat.succ n, s => closeN n (closeTop s)

/-- Case rule per classifier: a frame matches an end-tag name exactly, or up
to case when its classifier is case-insensitive (spec section 4.1). -/
def frameMatches (f : stack_frame) (tname : List Char) : Bool :=
  if f.info.caseSensitive then decide (f.fname = tname)
  else decide (lowerName f.fname = lowerName tname)

/-- Innermost-first search of the element stack (find_matching of section
4.2): the 0-based distance from the top of the topmost matching frame. -/
def findMatch (tname : List Char) : List stack_frame → Option Nat
  | [] => none
  | f :: rest =>
    if frameMatches f tname then some 0
    else (findMatch tname rest).map (· + 1)

/-- Modelled from the spec: start-tag dispatch — implicit close of the top
frame when its classifier lists the incoming name, push of the new frame,
element-open event, parse-state push for raw-text elements, and an
immediate close for self-closing elements (spec section 4.1). -/
def processStart (cfg : sgml_config) (s : sgml_parser_core)
    (tname : List Char) (line : Nat) : sgml_parser_core :=
  let info := cfg.classify tname
  let s1 :=
    match s.stack with
    | f :: _ =>
      if lowerName tname ∈ f.info.implicitClose.map lowerName then closeTop s else s
    | [] => s
  let s2 := { s1 with stack := ⟨tname, info, []⟩ :: s1.stack,
                      events := sgml_event.elementOpen tname line :: s1.events,
                      parsing := if info.rawText then tname :: s1.parsing else s1.parsing }
  if info.selfClosing then closeTop s2 else s2

/-- Report the given number of recoverable missing-end-tag errors. -/
def reportMissing (cfg : sgml_config) (line : Nat) :
    Nat → sgml_parser_core → sgml_parser_core
  | 0, s => s
  | Nat.succ n, s =>
    reportMissing cfg line n (handleError cfg s dom_code.unmatchedEndTag line)

/-- Modelled from the spec: end-tag dispatch — search the stack from the top
downward; on a match pop and close every frame from the top through the
match (top first), reporting one recoverable error per frame closed above
the match (the recovered missing end tags); with no match leave the stack
untouched and report a recoverable unmatched-end-tag error. -/
def processEnd (cfg : sgml_config) (s : sgml_parser_core)
    (tname : List Char) (line : Nat) : sgml_parser_core :=
  match findMatch tname s.stack with
  | some i => reportMissing cfg line i (closeN (i + 1) s)
  | none => handleError cfg s dom_code.unmatchedEndTag line

/-- Modelled from the spec: token dispatch of the driver (section 4.1).  A
parser whose latest code is not OK has terminated and ignores tokens. -/
def processToken (cfg : sgml_config) (s : sgml_parser_core)
    (t : sgml_token) : sgml_parser_core :=
  if s.code ≠ dom_code.ok then s
  else
    let s0 := if s.flags.countLines then { s with lastLine := some t.tline } else s
    match t.kind with
    | tok_kind.text content =>
      addChild { s0 with events := sgml_event.textEvent content t.tline :: s0.events }
        (dom_node.text content)
    | tok_kind.comment content =>
      addChild { s0 with events := sgml_event.commentEvent content t.tline :: s0.events }
        (dom_node.comment content)
    | tok_kind.startTag tname => processStart cfg s0 tname t.tline
    | tok_kind.endTag tname => processEnd cfg s0 tname t.tline

/-- Process a token list in order. -/
def processTokens (cfg : sgml_config) (s : sgml_parser_core)
    (ts : List sgml_token) : sgml_parser_core :=
  ts.foldl (processToken cfg) s

/-- Modelled from the spec: end-of-input handling on the final chunk — any
retained partial token is force-flushed as trailing text, then every frame
still open above the virtual root is force-closed top-to-bottom, with no
error reported for this case (spec sections 4.1 and 7). -/
def finishUp (cfg : sgml_config) (s : sgml_parser_full) : sgml_parser_full :=
  if s.core.code ≠ dom_code.ok then s
  else
    let c1 :=
      if s.pending = [] then s.core
      else processToken cfg s.core ⟨tok_kind.text s.pending, s.pendPos, s.pendLine⟩
    ⟨closeN c1.stack.length c1, [], s.pendPos, s.pendLine⟩

/-- parse_sgml (parser.h): feed one chunk.  The retained bytes are prefixed
to the buffer, the complete tokens are processed in order, the new partial
trailing bytes are retained, and on the final chunk the parse is brought to
its balanced terminal state.  The returned code of the C function is the
`code` field of the resulting instance. -/
def parse_sgml (cfg : sgml_config) (s : sgml_parser_full) (buf : List Char)
    (complete : Bool) : sgml_parser_full :=
  let r := scan s.pendPos s.pendLine (s.pending ++ buf)
  let s1 : sgml_parser_full :=
    ⟨processTokens cfg s.core r.toks, r.rest, r.rpos, r.rline⟩
  if complete then finishUp cfg s1 else s1

/-- init_sgml_parser (parser.h): the initial driver state — empty stacks,
no error, no node yet, no line recorded. -/
def initCore (flags : sgml_parser_flags) : sgml_parser_core :=
  ⟨flags, dom_code.ok, [], [], [], [], [], none⟩

/-- init_sgml_parser (parser.h): a fresh parser instance with no retained
bytes, at position 0, line 0. -/
def initFull (flags : sgml_parser_flags) : sgml_parser_full :=
  ⟨initCore flags, [], 0, 0⟩

/-- get_sgml_parser_line_number (parser.h): the line of the most recently
processed token, 0 when nothing was parsed yet; line numbers are only
available when SGML_PARSER_COUNT_LINES is set, otherwise 0. -/
def get_sgml_parser_line_number (s : sgml_parser_full) : Nat :=
  if s.core.flags.countLines then s.core.lastLine.getD 0 else 0

/-- Feed a document split into chunks: every chunk non-final except the
last (an empty chunk list degenerates to one final empty feed). -/
def feedChunks (cfg : sgml_config) (s : sgml_parser_full) :
    List (List Char) → sgml_parser_full
  | [] => parse_sgml cfg s [] true
  | [c] => parse_sgml cfg s c true
  | c :: c' :: cs => feedChunks cfg (parse_sgml cfg s c false) (c' :: cs)

/- Embedding of src/ecmascript/see/form.c.  The SEE interpreter, the
document and the view state are external; value conversions
(SEE_value_to_unsigned_char, SEE_ToUint32, accesskey_string_to_unicode,
atol) are taken as parameters.  C strings that may be NULL are Options. -/

/-- enum form_type of document/forms.h, with the twelve control types named
in form.c. -/
inductive form_type where
  | FC_TEXT
  | FC_PASSWORD
  | FC_FILE
  | FC_CHECKBOX
  | FC_RADIO
  | FC_SUBMIT
  | FC_IMAGE
  | FC_RESET
  | FC_BUTTON
  | FC_HIDDEN
  | FC_TEXTAREA
  | FC_SELECT
  deriving DecidableEq, Repr

/-- enum form_mode of document/forms.h as used by input_put. -/
inductive form_mode where
  | FORM_MODE_NORMAL
  | FORM_MODE_READONLY
  | FORM_MODE_DISABLED
  deriving DecidableEq, Repr

/-- The fields of struct form_control read or written by input_put and the
element collections of form.c. -/
structure form_control where
  ftype : form_type
  mode : form_mode
  alt : Option (List Char)
  cname : Option (List Char)
  maxlength : Int
  deriving DecidableEq, Repr

/-- The fields of struct form_state written by input_put. -/
structure form_state where
  state : Nat
  value : Option (List Char)
  deriving DecidableEq, Repr

/-- The fields of struct link written by input_put. -/
structure link_rec where
  accesskey : Nat
  where_img : Option (List Char)
  deriving DecidableEq, Repr

/-- The property names dispatched on by input_put (s_accessKey .. s_value);
`other` stands for any other property, which input_put ignores. -/
inductive input_prop where
  | accessKey
  | alt
  | checked
  | disabled
  | maxLength
  | pname
  | readonly
  | src
  | value
  | other
  deriving DecidableEq, Repr

/-- input_put (form.c): property write on an input object.  Returns the
form control, form state and link as left by the C function.  `toStr` is
SEE_value_to_unsigned_char (NULL result = none), `toUint32` is SEE_ToUint32,
`strToUnicode` is accesskey_string_to_unicode and `atoLong` is atol. -/
def input_put {V : Type} (toStr : V → Option (List Char)) (toUint32 : V → Nat)
    (strToUnicode : List Char → Nat) (atoLong : List Char → Int)
    (lk : Option link_rec) (p : input_prop) (fc : form_control)
    (fs : form_state) (val : V) : form_control × form_state × Option link_rec :=
  match p with
  | input_prop.accessKey =>
    match lk with
    | some l =>
      match toStr val with
      | none => (fc, fs, some l)
      | some str => (fc, fs, some { l with accesskey := strToUnicode str })
    | none => (fc, fs, none)
  | input_prop.alt => ({ fc with alt := toStr val }, fs, lk)
  | input_prop.checked =>
    if fc.ftype ≠ form_type.FC_CHECKBOX ∧ fc.ftype ≠ form_type.FC_RADIO then
      (fc, fs, lk)
    else (fc, { fs with state := toUint32 val }, lk)
  | input_prop.disabled =>
    ({ fc with mode :=
        if toUint32 val ≠ 0 then form_mode.FORM_MODE_DISABLED
        else if fc.mode = form_mode.FORM_MODE_READONLY then form_mode.FORM_MODE_READONLY
        else form_mode.FORM_MODE_NORMAL }, fs, lk)
  | input_prop.maxLength =>
    match toStr val with
    | none => (fc, fs, lk)
    | some str => ({ fc with maxlength := atoLong str }, fs, lk)
  | input_prop.pname => ({ fc with cname := toStr val }, fs, lk)
  | input_prop.readonly =>
    ({ fc with mode :=
        if toUint32 val ≠ 0 then form_mode.FORM_MODE_READONLY
        else if fc.mode = form_mode.FORM_MODE_DISABLED then form_mode.FORM_MODE_DISABLED
        else form_mode.FORM_MODE_NORMAL }, fs, lk)
  | input_prop.src =>
    match lk with
    | some l => (fc, fs, some { l with where_img := toStr val })
    | none => (fc, fs, none)
  | input_prop.value =>
    if fc.ftype = form_type.FC_FILE then (fc, fs, lk)
    else
      let fs1 : form_state := { fs with value := toStr val }
      if fc.ftype = form_type.FC_TEXT ∨ fc.ftype = form_type.FC_PASSWORD then
        (fc, { fs1 with state := (fs1.value.getD []).length }, lk)
      else (fc, fs1, lk)
  | input_prop.other => (fc, fs, lk)

/-- The input object of form.c, reduced to the state it wraps (the class
pointers and the four method closures carry no decidable content). -/
structure js_input where
  fs : form_state
  deriving DecidableEq, Repr

/-- js_get_input_object (form.c): always produces an object (SEE_NEW cannot
return NULL). -/
def js_get_input_object (fs : form_state) : js_input := ⟨fs⟩

/-- js_get_form_control_object (form.c): an input object for the ten
input-like control types, NULL (none) for textarea and select (the TODO
branch).  The default branch is unreachable for the closed enum and raises
INTERNAL before returning NULL. -/
def js_get_form_control_object (ftype : form_type) (fs : form_state) :
    Option js_input :=
  match ftype with
  | form_type.FC_TEXT => some (js_get_input_object fs)
  | form_type.FC_PASSWORD => some (js_get_input_object fs)
  | form_type.FC_FILE => some (js_get_input_object fs)
  | form_type.FC_CHECKBOX => some (js_get_input_object fs)
  | form_type.FC_RADIO => some (js_get_input_object fs)
  | form_type.FC_SUBMIT => some (js_get_input_object fs)
  | form_type.FC_IMAGE => some (js_get_input_object fs)
  | form_type.FC_RESET => some (js_get_input_object fs)
  | form_type.FC_BUTTON => some (js_get_input_object fs)
  | form_type.FC_HIDDEN => some (js_get_input_object fs)
  | form_type.FC_TEXTAREA => none
  | form_type.FC_SELECT => none

/-- js_form_elems_item (form.c): walk form->items with a counter until it
equals the requested index (atol of the argument, hence an integer that may
be negative); the result is undefined (none) when the index is out of range
or the control at that index has no input object.  `fsOf` is
find_form_state. -/
def js_form_elems_item (fsOf : form_control → form_state) :
    List form_control → Int → Option js_input
  | [], _ => none
  | fc :: rest, idx =>
    if idx = 0 then js_get_form_control_object fc.ftype (fsOf fc)
    else js_form_elems_item fsOf rest (idx - 1)

/-- The name test of js_form_elems_namedItem: fc->name is non-NULL and
strcasecmp finds the names equal up to case. -/
def matchName (qname : List Char) (fc : form_control) : Bool :=
  match fc.cname with
  | some n => decide (lowerName qname = lowerName n)
  | none => false

/-- js_form_elems_namedItem (form.c): the first control whose name matches
case-insensitively; the result is undefined (none) when no control matches
or the matching control has no input object. -/
def js_form_elems_namedItem (fsOf : form_control → form_state)
    (qname : List Char) : List form_control → Option js_input
  | [] => none
  | fc :: rest =>
    if matchName qname fc then js_get_form_control_object fc.ftype (fsOf fc)
    else js_form_elems_namedItem fsOf qname rest

/- Balance of open and close events (used for the end-of-input claim). -/

/-- Test for an element-open event. -/
def isOpenEv : sgml_event → Bool
  | sgml_event.elementOpen _ _ => true
  | _ => false

/-- Test for an element-close event. -/
def isCloseEv : sgml_event → Bool
  | sgml_event.elementClose _ => true
  | _ => false

/-- Number of element-open events. -/
def openCount (evs : List sgml_event) : Nat := evs.countP isOpenEv

/-- Number of element-close events. -/
def closeCount (evs : List sgml_event) : Nat := evs.countP isCloseEv

/-- The stack discipline invariant: the number of open events exceeds the
number of close events by exactly the number of still-open frames. -/
def balanced (s : sgml_parser_core) : Prop :=
  openCount s.events = closeCount s.events + s.stack.length

/- Well-formedness of the built tree: no two adjacent text-node siblings
(the text-merging discipline of the tree builder). -/

/-- Test for a text node. -/
def isTextNode : dom_node → Bool
  | dom_node.text _ => true
  | _ => false

/-- No two adjacent text nodes in a sibling list. -/
def adjFree (l : List dom_node) : Prop :=
  List.Chain' (fun a b => ¬(isTextNode a = true ∧ isTextNode b = true)) l

mutual

/-- A node all of whose element descendants have merge-clean child lists. -/
def nodeGood : dom_node → Prop
  | dom_node.element _ children => adjFree children ∧ nodesGood children
  | dom_node.text _ => True
  | dom_node.comment _ => True

/-- All nodes of a list are good. -/
def nodesGood : List dom_node → Prop
  | [] => True
  | n :: rest => nodeGood n ∧ nodesGood rest

end

/-- The tree-builder invariant: every open frame's accumulated children and
the virtual root's children are merge-clean and recursively good. -/
def coreGood (s : sgml_parser_core) : Prop :=
  (∀ f ∈ s.stack, adjFree f.children ∧ nodesGood f.children) ∧
  adjFree s.rootChildren ∧ nodesGood s.rootChildren

/- Concrete classifier, callback, flags and inputs used to instantiate the
general theorems on closed data. -/

/-- A classifier resolving every name to the default unknown record, and a
callback always answering OK. -/
def cfg0 : sgml_config := ⟨fun _ => unknownInfo, fun _ _ => dom_code.ok⟩

/-- A callback that always requests termination. -/
def cfgAbort : sgml_config :=
  ⟨fun _ => unknownInfo, fun _ _ => dom_code.callbackAborted⟩

/-- Flags with line counting, incremental parsing and error reporting on. -/
def flags0 : sgml_parser_flags := ⟨true, true, true⟩

/-- Flags with line counting off. -/
def flagsOff : sgml_parser_flags := ⟨false, true, true⟩

/-- An open frame for an element named i. -/
def frameI : stack_frame := ⟨['i'], unknownInfo, []⟩

/-- An open frame for an element named b. -/
def frameB : stack_frame := ⟨['b'], unknownInfo, []⟩

/-- A parser state amid b and i both open (the i frame on top). -/
def st2 : sgml_parser_core :=
  ⟨flags0, dom_code.ok, [frameI, frameB], [], [], [], [], none⟩

/-- The bytes of the truncated document b i x with both tags unclosed. -/
def doc3 : List Char := ['<', 'b', '>', '<', 'i', '>', 'x']

/-- A form state with empty value. -/
def fs0 : form_state := ⟨0, none⟩

/-- A checkbox control. -/
def fcChk : form_control :=
  ⟨form_type.FC_CHECKBOX, form_mode.FORM_MODE_NORMAL, none, none, 0⟩

/-- A text control. -/
def fcTxt : form_control :=
  ⟨form_type.FC_TEXT, form_mode.FORM_MODE_NORMAL, none, none, 0⟩

/-- A textarea control named a. -/
def fcTA : form_control :=
  ⟨form_type.FC_TEXTAREA, form_mode.FORM_MODE_NORMAL, none, some ['a'], 0⟩

theorem countNl_append (a b : List Char) :
    countNl (a ++ b) = countNl a + countNl b := by
  simp [countNl, List.countP_append]

theorem splitGt_eq {l a b} (h : splitGt l = some (a, b)) : l = a ++ '>' :: b := by
  induction l generalizing a b with
  | nil => simp [splitGt] at h
  | cons c r ih =>
    simp only [splitGt] at h
    split at h
    · rename_i hc
      simp only [Option.some.injEq, Prod.mk.injEq] at h
      obtain ⟨ha, hb⟩ := h
      subst hc
      simp [← ha, ← hb]
    · rename_i hc
      cases hsr : splitGt r with
      | none => rw [hsr] at h; simp at h
      | some p =>
        rw [hsr] at h
        simp only [Option.map_some', Option.some.injEq, Prod.mk.injEq] at h
        obtain ⟨ha, hb⟩ := h
        have := ih (show splitGt r = some (p.1, p.2) by rw [hsr])
        simp [← ha, ← hb, this]

theorem splitGt_append {l a b} (m : List Char) (h : splitGt l = some (a, b)) :
    splitGt (l ++ m) = some (a, b ++ m) := by
  induction l generalizing a with
  | nil => simp [splitGt] at h
  | cons c r ih =>
    simp only [splitGt] at h
    rw [List.cons_append]
    simp only [splitGt]
    split at h
    · rename_i hc
      rw [if_pos hc]
      simp only [Option.some.injEq, Prod.mk.injEq] at h
      obtain ⟨ha, hb⟩ := h
      simp [← ha, ← hb]
    · rename_i hc
      rw [if_neg hc]
      cases hsr : splitGt r with
      | none => rw [hsr] at h; simp at h
      | some p =>
        rw [hsr] at h
        simp only [Option.map_some', Option.some.injEq, Prod.mk.injEq] at h
        obtain ⟨ha, hb⟩ := h
        rw [ih (show splitGt r = some (p.1, b) by rw [hsr, ← hb])]
        simp [← ha]

theorem txtOf_append_restOf (buf : List Char) : txtOf buf ++ restOf buf = buf := by
  unfold txtOf restOf
  exact List.takeWhile_append_dropWhile isNotLt buf

theorem txtOf_restOf_append {buf : List Char} (m : List Char) (h : restOf buf ≠ []) :
    txtOf (buf ++ m) = txtOf buf ∧ restOf (buf ++ m) = restOf buf ++ m := by
  induction buf with
  | nil => simp [restOf] at h
  | cons c r ih =>
    by_cases hc : isNotLt c
    · have h' : restOf r ≠ [] := by
        simpa [restOf, List.dropWhile_cons, hc] using h
      obtain ⟨h1, h2⟩ := ih h'
      constructor
      · simp [txtOf, List.takeWhile_cons, hc] at h1 ⊢
        exact h1
      · simp [restOf, List.dropWhile_cons, hc] at h2 ⊢
        exact h2
    · constructor
      · simp [txtOf, List.takeWhile_cons, hc]
      · simp [restOf, List.dropWhile_cons, hc]

theorem scan1_nil (pos line : Nat) : scan1 pos line [] = none := rfl

/-- The token source always consumes at least one character per token. -/
theorem scan1_length_lt {pos line buf t p l rest}
    (h : scan1 pos line buf = some (t, p, l, rest)) : rest.length < buf.length := by
  match buf with
  | [] => simp [scan1] at h
  | c :: r =>
    by_cases hc : c = '<'
    · rw [scan1, if_pos hc] at h
      cases hs : splitGt r with
      | none => rw [hs] at h; simp at h
      | some q =>
        rw [hs] at h
        simp only [Option.some.injEq, Prod.mk.injEq] at h
        obtain ⟨_, _, _, h4⟩ := h
        have := splitGt_eq (show splitGt r = some (q.1, q.2) by rw [hs])
        subst h4
        simp [this]
        omega
    · rw [scan1, if_neg hc] at h
      by_cases he : restOf (c :: r) = []
      · rw [if_pos he] at h; simp at h
      · rw [if_neg he] at h
        simp only [Option.some.injEq, Prod.mk.injEq] at h
        obtain ⟨_, _, _, h4⟩ := h
        subst h4
        have hsum : (txtOf (c :: r)).length + (restOf (c :: r)).length
            = (c :: r).length := by
          rw [← List.length_append, txtOf_append_restOf]
        have hne : txtOf (c :: r) ≠ [] := by
          have hcc : isNotLt c := by simp [isNotLt, hc]
          simp [txtOf, List.takeWhile_cons, hcc]
        have hpos : 0 < (txtOf (c :: r)).length := List.length_pos.mpr hne
        omega

/-- If the buffer yields a complete token, appending further input changes
neither the token nor the split; only the remainder is extended. -/
theorem scan1_append {pos line buf t p l rest} (more : List Char)
    (h : scan1 pos line buf = some (t, p, l, rest)) :
    scan1 pos line (buf ++ more) = some (t, p, l, rest ++ more) := by
  match buf with
  | [] => simp [scan1] at h
  | c :: r =>
    by_cases hc : c = '<'
    · rw [scan1, if_pos hc] at h
      cases hs : splitGt r with
      | none => rw [hs] at h; simp at h
      | some q =>
        rw [hs] at h
        simp only [Option.some.injEq, Prod.mk.injEq] at h
        obtain ⟨h1, h2, h3, h4⟩ := h
        rw [List.cons_append, scan1, if_pos hc,
            splitGt_append more (show splitGt r = some (q.1, q.2) by rw [hs])]
        simp [h1, h2, h3, ← h4]
    · rw [scan1, if_neg hc] at h
      by_cases he : restOf (c :: r) = []
      · rw [if_pos he] at h; simp at h
      · rw [if_neg he] at h
        simp only [Option.some.injEq, Prod.mk.injEq] at h
        obtain ⟨h1, h2, h3, h4⟩ := h
        obtain ⟨ht, hr⟩ := txtOf_restOf_append more he
        have he2 : restOf ((c :: r) ++ more) ≠ [] := by
          rw [hr]
          intro hx
          exact he (List.append_eq_nil.mp hx).1
        rw [List.cons_append] at *
        rw [scan1, if_neg hc, if_neg he2, ht, hr]
        simp [h1, h2, h3, ← h4]

theorem scanAux_fuel : ∀ (n m : Nat) (pos line : Nat) (buf : List Char),
    buf.length ≤ n → buf.length ≤ m →
    scanAux n pos line buf = scanAux m pos line buf := by
  intro n
  induction n with
  | zero =>
    intro m pos line buf hn hm
    have : buf = [] := List.eq_nil_of_length_eq_zero (Nat.le_zero.mp hn)
    subst this
    cases m with
    | zero => rfl
    | succ m => simp [scanAux, scan1_nil]
  | succ n ih =>
    intro m pos line buf hn hm
    cases m with
    | zero =>
      have : buf = [] := List.eq_nil_of_length_eq_zero (Nat.le_zero.mp hm)
      subst this
      simp [scanAux, scan1_nil]
    | succ m =>
      simp only [scanAux]
      match h : scan1 pos line buf with
      | none => rfl
      | some (t, p, l, rest) =>
        have hlt := scan1_length_lt h
        have h1 : rest.length ≤ n := by omega
        have h2 : rest.length ≤ m := by omega
        simp [ih m p l rest h1 h2]

theorem scan_eq_none {pos line buf} (h : scan1 pos line buf = none) :
    scan pos line buf = ⟨[], pos, line, buf⟩ := by
  unfold scan
  cases hb : buf.length with
  | zero => rfl
  | succ n => simp [scanAux, h]

theorem scan_eq_some {pos line buf t p l rest}
    (h : scan1 pos line buf = some (t, p, l, rest)) :
    scan pos line buf =
      ⟨t :: (scan p l rest).toks, (scan p l rest).rpos,
       (scan p l rest).rline, (scan p l rest).rest⟩ := by
  unfold scan
  have hlt := scan1_length_lt h
  cases hb : buf.length with
  | zero => omega
  | succ n =>
    simp only [scanAux, h]
    have h1 : rest.length ≤ n := by omega
    rw [scanAux_fuel n rest.length p l rest h1 (le_refl _)]

/- Field-preservation facts about the driver operations. -/

@[simp] theorem addChild_flags (s : sgml_parser_core) (n : dom_node) :
    (addChild s n).flags = s.flags := by
  unfold addChild; cases hs : s.stack <;> simp

@[simp] theorem addChild_code (s : sgml_parser_core) (n : dom_node) :
    (addChild s n).code = s.code := by
  unfold addChild; cases hs : s.stack <;> simp

@[simp] theorem addChild_errors (s : sgml_parser_core) (n : dom_node) :
    (addChild s n).errors = s.errors := by
  unfold addChild; cases hs : s.stack <;> simp

@[simp] theorem addChild_lastLine (s : sgml_parser_core) (n : dom_node) :
    (addChild s n).lastLine = s.lastLine := by
  unfold addChild; cases hs : s.stack <;> simp

@[simp] theorem addChild_events (s : sgml_parser_core) (n : dom_node) :
    (addChild s n).events = s.events := by
  unfold addChild; cases hs : s.stack <;> simp

@[simp] theorem addChild_parsing (s : sgml_parser_core) (n : dom_node) :
    (addChild s n).parsing = s.parsing := by
  unfold addChild; cases hs : s.stack <;> simp

@[simp] theorem addChild_stack_length (s : sgml_parser_core) (n : dom_node) :
    (addChild s n).stack.length = s.stack.length := by
  unfold addChild; cases hs : s.stack <;> simp

@[simp] theorem addChild_stack_names (s : sgml_parser_core) (n : dom_node) :
    (addChild s n).stack.map stack_frame.fname = s.stack.map stack_frame.fname := by
  unfold addChild; cases hs : s.stack <;> simp

@[simp] theorem closeTop_flags (s : sgml_parser_core) : (closeTop s).flags = s.flags := by
  unfold closeTop; cases hs : s.stack <;> simp

@[simp] theorem closeTop_code (s : sgml_parser_core) : (closeTop s).code = s.code := by
  unfold closeTop; cases hs : s.stack <;> simp

@[simp] theorem closeTop_errors (s : sgml_parser_core) : (closeTop s).errors = s.errors := by
  unfold closeTop; cases hs : s.stack <;> simp

@[simp] theorem closeTop_lastLine (s : sgml_parser_core) :
    (closeTop s).lastLine = s.lastLine := by
  unfold closeTop; cases hs : s.stack <;> simp

theorem closeTop_of_nil (s : sgml_parser_core) (h : s.stack = []) : closeTop s = s := by
  unfold closeTop; rw [h]

theorem closeTop_stack_names (s : sgml_parser_core) (f : stack_frame)
    (rest : List stack_frame) (h : s.stack = f :: rest) :
    (closeTop s).stack.map stack_frame.fname = rest.map stack_frame.fname := by
  unfold closeTop; rw [h]; cases rest <;> simp [addChild]

theorem closeTop_stack_length_cons (s : sgml_parser_core) (f : stack_frame)
    (rest : List stack_frame) (h : s.stack = f :: rest) :
    (closeTop s).stack.length = rest.length := by
  unfold closeTop; rw [h]; cases rest <;> simp [addChild]

theorem closeTop_events_cons (s : sgml_parser_core) (f : stack_frame)
    (rest : List stack_frame) (h : s.stack = f :: rest) :
    (closeTop s).events = sgml_event.elementClose f.fname :: s.events := by
  unfold closeTop; rw [h]; cases rest <;> simp [addChild]

@[simp] theorem closeN_flags (k : Nat) : ∀ s : sgml_parser_core,
    (closeN k s).flags = s.flags := by
  induction k with
  | zero => intro s; rfl
  | succ n ih => intro s; rw [closeN, ih, closeTop_flags]

@[simp] theorem closeN_code (k : Nat) : ∀ s : sgml_parser_core,
    (closeN k s).code = s.code := by
  induction k with
  | zero => intro s; rfl
  | succ n ih => intro s; rw [closeN, ih, closeTop_code]

@[simp] theorem closeN_errors (k : Nat) : ∀ s : sgml_parser_core,
    (closeN k s).errors = s.errors := by
  induction k with
  | zero => intro s; rfl
  | succ n ih => intro s; rw [closeN, ih, closeTop_errors]

@[simp] theorem closeN_lastLine (k : Nat) : ∀ s : sgml_parser_core,
    (closeN k s).lastLine = s.lastLine := by
  induction k with
  | zero => intro s; rfl
  | succ n ih => intro s; rw [closeN, ih, closeTop_lastLine]

@[simp] theorem handleError_stack (cfg : sgml_config) (s : sgml_parser_core)
    (c : dom_code) (l : Nat) : (handleError cfg s c l).stack = s.stack := by
  unfold handleError; split_ifs <;> rfl

@[simp] theorem handleError_events (cfg : sgml_config) (s : sgml_parser_core)
    (c : dom_code) (l : Nat) : (handleError cfg s c l).events = s.events := by
  unfold handleError; split_ifs <;> rfl

@[simp] theorem handleError_parsing (cfg : sgml_config) (s : sgml_parser_core)
    (c : dom_code) (l : Nat) : (handleError cfg s c l).parsing = s.parsing := by
  unfold handleError; split_ifs <;> rfl

@[simp] theorem handleError_rootChildren (cfg : sgml_config) (s : sgml_parser_core)
    (c : dom_code) (l : Nat) : (handleError cfg s c l).rootChildren = s.rootChildren := by
  unfold handleError; split_ifs <;> rfl

@[simp] theorem handleError_lastLine (cfg : sgml_config) (s : sgml_parser_core)
    (c : dom_code) (l : Nat) : (handleError cfg s c l).lastLine = s.lastLine := by
  unfold handleError; split_ifs <;> rfl

@[simp] theorem handleError_flags (cfg : sgml_config) (s : sgml_parser_core)
    (c : dom_code) (l : Nat) : (handleError cfg s c l).flags = s.flags := by
  unfold handleError; split_ifs <;> rfl

@[simp] theorem handleError_stack_children (cfg : sgml_config) (s : sgml_parser_core)
    (c : dom_code) (l : Nat) : (handleError cfg s c l).stack = s.stack ∧
    (handleError cfg s c l).rootChildren = s.rootChildren :=
  ⟨handleError_stack cfg s c l, handleError_rootChildren cfg s c l⟩

theorem handleError_code_cb (cfg : sgml_config) (s : sgml_parser_core)
    (c : dom_code) (l : Nat) (hcb : cfg.errorFunc c l = dom_code.ok) :
    (handleError cfg s c l).code = s.code := by
  unfold handleError
  split_ifs <;> rfl

theorem handleError_errors_mem (cfg : sgml_config) (s : sgml_parser_core)
    (c : dom_code) (l : Nat) {e : error_record}
    (he : e ∈ (handleError cfg s c l).errors) : e ∈ s.errors ∨ e.ecode = c := by
  unfold handleError at he
  split_ifs at he
  · exact Or.inl he
  · rcases List.mem_cons.mp he with h | h
    · right; rw [h]
    · exact Or.inl h
  · exact Or.inl he
  · exact Or.inl he

theorem handleError_detect (cfg : sgml_config) (s : sgml_parser_core)
    (c : dom_code) (l : Nat) (hok : s.code = dom_code.ok)
    (hde : s.flags.detectErrors = true) (hcb : cfg.errorFunc c l = dom_code.ok) :
    handleError cfg s c l = { s with errors := ⟨c, l⟩ :: s.errors } := by
  unfold handleError
  rw [if_neg (by simp [hok]), if_pos hde, hcb, if_pos rfl]

@[simp] theorem reportMissing_stack (cfg : sgml_config) (line : Nat) (k : Nat) :
    ∀ s : sgml_parser_core, (reportMissing cfg line k s).stack = s.stack := by
  induction k with
  | zero => intro s; rfl
  | succ n ih => intro s; rw [reportMissing, ih, handleError_stack]

@[simp] theorem reportMissing_events (cfg : sgml_config) (line : Nat) (k : Nat) :
    ∀ s : sgml_parser_core, (reportMissing cfg line k s).events = s.events := by
  induction k with
  | zero => intro s; rfl
  | succ n ih => intro s; rw [reportMissing, ih, handleError_events]

@[simp] theorem reportMissing_parsing (cfg : sgml_config) (line : Nat) (k : Nat) :
    ∀ s : sgml_parser_core, (reportMissing cfg line k s).parsing = s.parsing := by
  induction k with
  | zero => intro s; rfl
  | succ n ih => intro s; rw [reportMissing, ih, handleError_parsing]

@[simp] theorem reportMissing_rootChildren (cfg : sgml_config) (line : Nat) (k : Nat) :
    ∀ s : sgml_parser_core, (reportMissing cfg line k s).rootChildren = s.rootChildren := by
  induction k with
  | zero => intro s; rfl
  | succ n ih => intro s; rw [reportMissing, ih, handleError_rootChildren]

@[simp] theorem reportMissing_lastLine (cfg : sgml_config) (line : Nat) (k : Nat) :
    ∀ s : sgml_parser_core, (reportMissing cfg line k s).lastLine = s.lastLine := by
  induction k with
  | zero => intro s; rfl
  | succ n ih => intro s; rw [reportMissing, ih, handleError_lastLine]

@[simp] theorem reportMissing_flags (cfg : sgml_config) (line : Nat) (k : Nat) :
    ∀ s : sgml_parser_core, (reportMissing cfg line k s).flags = s.flags := by
  induction k with
  | zero => intro s; rfl
  | succ n ih => intro s; rw [reportMissing, ih, handleError_flags]

theorem reportMissing_code_cb (cfg : sgml_config) (line : Nat)
    (hcb : ∀ c l, cfg.errorFunc c l = dom_code.ok) (k : Nat) :
    ∀ s : sgml_parser_core, (reportMissing cfg line k s).code = s.code := by
  induction k with
  | zero => intro s; rfl
  | succ n ih =>
    intro s
    rw [reportMissing, ih, handleError_code_cb cfg s _ _ (hcb _ _)]

theorem reportMissing_errors_mem (cfg : sgml_config) (line : Nat) (k : Nat) :
    ∀ (s : sgml_parser_core) (e : error_record),
    e ∈ (reportMissing cfg line k s).errors →
    e ∈ s.errors ∨ e.ecode = dom_code.unmatchedEndTag := by
  induction k with
  | zero => intro s e he; exact Or.inl he
  | succ n ih =>
    intro s e he
    rw [reportMissing] at he
    rcases ih _ e he with h | h
    · exact handleError_errors_mem cfg s _ _ h
    · exact Or.inr h

theorem closeN_spec (k : Nat) : ∀ s : sgml_parser_core, k ≤ s.stack.length →
    (closeN k s).stack.map stack_frame.fname = (s.stack.map stack_frame.fname).drop k ∧
    (closeN k s).events =
      (((s.stack.take k).map stack_frame.fname).map sgml_event.elementClose).reverse
        ++ s.events := by
  induction k with
  | zero => intro s h; simp [closeN]
  | succ n ih =>
    intro s h
    match hs : s.stack with
    | [] => rw [hs] at h; simp at h
    | f :: rest =>
      rw [hs] at h
      simp only [List.length_cons] at h
      have hlen : n ≤ (closeTop s).stack.length := by
        rw [closeTop_stack_length_cons s f rest hs]; omega
      obtain ⟨hst, hev⟩ := ih (closeTop s) hlen
      have hnames := closeTop_stack_names s f rest hs
      have hevc := closeTop_events_cons s f rest hs
      have htake : ((closeTop s).stack.take n).map stack_frame.fname
          = (rest.take n).map stack_frame.fname := by
        rw [List.map_take, List.map_take, hnames]
      constructor
      · rw [closeN, hst, hnames]
        simp
      · rw [closeN, hev, htake, hevc]
        simp [List.take_succ_cons, List.reverse_cons, List.append_assoc]

theorem closeN_all (n : Nat) : ∀ s : sgml_parser_core, s.stack.length ≤ n →
    (closeN n s).stack = [] := by
  induction n with
  | zero =>
    intro s h
    have : s.stack = [] := List.eq_nil_of_length_eq_zero (Nat.le_zero.mp h)
    rw [closeN, this]
  | succ n ih =>
    intro s h
    rw [closeN]
    apply ih
    match hs : s.stack with
    | [] => rw [closeTop_of_nil s hs, hs]; simp
    | f :: rest =>
      rw [closeTop_stack_length_cons s f rest hs]
      rw [hs] at h
      simp at h
      omega

theorem findMatch_lt {tname : List Char} : ∀ {st : List stack_frame} {i : Nat},
    findMatch tname st = some i → i < st.length := by
  intro st
  induction st with
  | nil => intro i h; simp [findMatch] at h
  | cons f rest ih =>
    intro i h
    rw [findMatch] at h
    split_ifs at h with hm
    · simp at h
      subst h
      simp
    · simp only [Option.map_eq_some'] at h
      obtain ⟨j, hj, hji⟩ := h
      have hlt := ih hj
      rw [← hji]
      simp only [List.length_cons]
      omega

theorem findMatch_found {tname : List Char} : ∀ {st : List stack_frame} {i : Nat},
    findMatch tname st = some i →
    ∃ f, st.get? i = some f ∧ frameMatches f tname = true := by
  intro st
  induction st with
  | nil => intro i h; simp [findMatch] at h
  | cons f rest ih =>
    intro i h
    rw [findMatch] at h
    split_ifs at h with hm
    · simp at h
      subst h
      exact ⟨f, rfl, hm⟩
    · simp only [Option.map_eq_some'] at h
      obtain ⟨j, hj, hji⟩ := h
      obtain ⟨g, hg, hgm⟩ := ih hj
      exact ⟨g, by rw [← hji]; exact hg, hgm⟩

theorem findMatch_earlier {tname : List Char} : ∀ {st : List stack_frame} {i : Nat},
    findMatch tname st = some i →
    ∀ (j : Nat) (f : stack_frame), j < i → st.get? j = some f →
    frameMatches f tname = false := by
  intro st
  induction st with
  | nil => intro i h; simp [findMatch] at h
  | cons f rest ih =>
    intro i h j g hj hg
    rw [findMatch] at h
    split_ifs at h with hm
    · simp at h
      omega
    · simp only [Option.map_eq_some'] at h
      obtain ⟨k, hk, hki⟩ := h
      match j with
      | 0 =>
        have hfg : f = g := by simpa using hg
        rw [← hfg]
        simpa using hm
      | Nat.succ j' =>
        exact ih hk j' g (by omega) (by simpa using hg)

theorem findMatch_none_iff {tname : List Char} : ∀ {st : List stack_frame},
    findMatch tname st = none ↔ ∀ f ∈ st, frameMatches f tname = false := by
  intro st
  induction st with
  | nil => simp [findMatch]
  | cons f rest ih =>
    rw [findMatch]
    split_ifs with hm
    · simp [hm]
    · simp only [Option.map_eq_none', ih]
      constructor
      · intro hall g hg
        rcases List.mem_cons.mp hg with h | h
        · rw [h]; simpa using hm
        · exact hall g h
      · intro hall g hg
        exact hall g (List.mem_cons_of_mem f hg)

@[simp] theorem processStart_flags (cfg : sgml_config) (s : sgml_parser_core)
    (tname : List Char) (line : Nat) :
    (processStart cfg s tname line).flags = s.flags := by
  unfold processStart
  dsimp only
  split_ifs <;> split <;> (try split_ifs) <;> simp

@[simp] theorem processStart_code (cfg : sgml_config) (s : sgml_parser_core)
    (tname : List Char) (line : Nat) :
    (processStart cfg s tname line).code = s.code := by
  unfold processStart
  dsimp only
  split_ifs <;> split <;> (try split_ifs) <;> simp

@[simp] theorem processStart_errors (cfg : sgml_config) (s : sgml_parser_core)
    (tname : List Char) (line : Nat) :
    (processStart cfg s tname line).errors = s.errors := by
  unfold processStart
  dsimp only
  split_ifs <;> split <;> (try split_ifs) <;> simp

@[simp] theorem processStart_lastLine (cfg : sgml_config) (s : sgml_parser_core)
    (tname : List Char) (line : Nat) :
    (processStart cfg s tname line).lastLine = s.lastLine := by
  unfold processStart
  dsimp only
  split_ifs <;> split <;> (try split_ifs) <;> simp

@[simp] theorem processEnd_flags (cfg : sgml_config) (s : sgml_parser_core)
    (tname : List Char) (line : Nat) :
    (processEnd cfg s tname line).flags = s.flags := by
  unfold processEnd
  split <;> simp

@[simp] theorem processEnd_lastLine (cfg : sgml_config) (s : sgml_parser_core)
    (tname : List Char) (line : Nat) :
    (processEnd cfg s tname line).lastLine = s.lastLine := by
  unfold processEnd
  split <;> simp

theorem processEnd_code_cb (cfg : sgml_config) (s : sgml_parser_core)
    (tname : List Char) (line : Nat)
    (hcb : ∀ c l, cfg.errorFunc c l = dom_code.ok) :
    (processEnd cfg s tname line).code = s.code := by
  unfold processEnd
  split
  · rw [reportMissing_code_cb cfg line hcb, closeN_code]
  · rw [handleError_code_cb cfg s _ _ (hcb _ _)]

theorem processToken_skip (cfg : sgml_config) (s : sgml_parser_core)
    (t : sgml_token) (h : s.code ≠ dom_code.ok) : processToken cfg s t = s := by
  unfold processToken
  rw [if_pos h]

theorem processTokens_skip (cfg : sgml_config) (s : sgml_parser_core)
    (h : s.code ≠ dom_code.ok) : ∀ ts, processTokens cfg s ts = s := by
  intro ts
  induction ts with
  | nil => rfl
  | cons t ts ih =>
    show processTokens cfg (processToken cfg s t) ts = s
    rw [processToken_skip cfg s t h]
    exact ih

@[simp] theorem processToken_flags (cfg : sgml_config) (s : sgml_parser_core)
    (t : sgml_token) : (processToken cfg s t).flags = s.flags := by
  unfold processToken
  dsimp only
  split_ifs with h h2
  · rfl
  · split <;> (try split_ifs) <;> simp
  · split <;> (try split_ifs) <;> simp

theorem processToken_code_cb (cfg : sgml_config) (s : sgml_parser_core)
    (t : sgml_token) (hcb : ∀ c l, cfg.errorFunc c l = dom_code.ok) :
    (processToken cfg s t).code = s.code := by
  unfold processToken
  dsimp only
  split_ifs with h h2
  · rfl
  · split <;> (try split_ifs) <;>
      simp [processEnd_code_cb _ _ _ _ hcb]
  · split <;> (try split_ifs) <;>
      simp [processEnd_code_cb _ _ _ _ hcb]

theorem processToken_code_mono (cfg : sgml_config) (s : sgml_parser_core)
    (t : sgml_token) (h : (processToken cfg s t).code = dom_code.ok) :
    s.code = dom_code.ok := by
  by_cases hs : s.code = dom_code.ok
  · exact hs
  · rw [processToken_skip cfg s t hs] at h
    exact h

theorem processTokens_code_mono (cfg : sgml_config) :
    ∀ (ts : List sgml_token) (s : sgml_parser_core),
    (processTokens cfg s ts).code = dom_code.ok → s.code = dom_code.ok := by
  intro ts
  induction ts with
  | nil => intro s h; exact h
  | cons t ts ih =>
    intro s h
    have h1 : (processTokens cfg (processToken cfg s t) ts).code = dom_code.ok := h
    exact processToken_code_mono cfg s t (ih _ h1)

theorem processTokens_append (cfg : sgml_config) (s : sgml_parser_core)
    (a b : List sgml_token) :
    processTokens cfg s (a ++ b) = processTokens cfg (processTokens cfg s a) b := by
  simp [processTokens, List.foldl_append]

@[simp] theorem processTokens_flags (cfg : sgml_config) :
    ∀ (ts : List sgml_token) (s : sgml_parser_core),
    (processTokens cfg s ts).flags = s.flags := by
  intro ts
  induction ts with
  | nil => intro s; rfl
  | cons t ts ih =>
    intro s
    show (processTokens cfg (processToken cfg s t) ts).flags = s.flags
    rw [ih, processToken_flags]

theorem processToken_lastLine_set (cfg : sgml_config) (s : sgml_parser_core)
    (t : sgml_token) (hok : s.code = dom_code.ok)
    (hcl : s.flags.countLines = true) :
    (processToken cfg s t).lastLine = some t.tline := by
  unfold processToken
  dsimp only
  rw [if_neg (by simp [hok])]
  rw [if_pos hcl]
  split <;> simp

theorem processToken_lastLine_off (cfg : sgml_config) (s : sgml_parser_core)
    (t : sgml_token) (hcl : s.flags.countLines = false) :
    (processToken cfg s t).lastLine = s.lastLine := by
  unfold processToken
  dsimp only
  split_ifs with h h2
  · rfl
  · exact absurd h2 (by simp [hcl])
  · split <;> simp

theorem processTokens_lastLine_off (cfg : sgml_config) :
    ∀ (ts : List sgml_token) (s : sgml_parser_core),
    s.flags.countLines = false →
    (processTokens cfg s ts).lastLine = s.lastLine := by
  intro ts
  induction ts with
  | nil => intro s h; rfl
  | cons t ts ih =>
    intro s h
    show (processTokens cfg (processToken cfg s t) ts).lastLine = s.lastLine
    rw [ih _ (by rw [processToken_flags]; exact h), processToken_lastLine_off cfg s t h]

theorem closeTop_balanced (s : sgml_parser_core) (h : balanced s) :
    balanced (closeTop s) := by
  unfold balanced at *
  match hs : s.stack with
  | [] => rw [closeTop_of_nil s hs]; exact h
  | f :: rest =>
    rw [closeTop_events_cons s f rest hs, closeTop_stack_length_cons s f rest hs]
    rw [hs] at h
    unfold openCount closeCount at *
    rw [List.countP_cons, List.countP_cons]
    simp [isOpenEv, isCloseEv] at *
    omega

theorem closeN_balanced (k : Nat) : ∀ s : sgml_parser_core, balanced s →
    balanced (closeN k s) := by
  induction k with
  | zero => intro s h; exact h
  | succ n ih => intro s h; rw [closeN]; exact ih _ (closeTop_balanced s h)

theorem addChild_balanced (s : sgml_parser_core) (n : dom_node) (h : balanced s) :
    balanced (addChild s n) := by
  unfold balanced at *
  rw [addChild_events, addChild_stack_length]
  exact h

theorem push_balanced (s : sgml_parser_core) (fr : stack_frame) (nm : List Char)
    (l : Nat) (pars : List (List Char)) (h : balanced s) :
    balanced ⟨s.flags, s.code, fr :: s.stack, s.rootChildren, pars,
              sgml_event.elementOpen nm l :: s.events, s.errors, s.lastLine⟩ := by
  unfold balanced at *
  unfold openCount closeCount at *
  rw [List.countP_cons, List.countP_cons]
  simp [isOpenEv, isCloseEv]
  omega

theorem nonstruct_balanced (s : sgml_parser_core) (ev : sgml_event)
    (ll : Option Nat) (hev : isOpenEv ev = false) (hcl : isCloseEv ev = false)
    (h : balanced s) :
    balanced ⟨s.flags, s.code, s.stack, s.rootChildren, s.parsing,
              ev :: s.events, s.errors, ll⟩ := by
  unfold balanced at *
  unfold openCount closeCount at *
  rw [List.countP_cons, List.countP_cons]
  rw [hev, hcl]
  simp
  exact h

theorem balanced_lastLine (s : sgml_parser_core) (ll : Option Nat)
    (h : balanced s) :
    balanced ⟨s.flags, s.code, s.stack, s.rootChildren, s.parsing,
              s.events, s.errors, ll⟩ := h

theorem processStart_balanced (cfg : sgml_config) (s : sgml_parser_core)
    (tname : List Char) (line : Nat) (h : balanced s) :
    balanced (processStart cfg s tname line) := by
  unfold processStart
  dsimp only
  split_ifs <;> split <;> (try split_ifs) <;>
    first
      | exact closeTop_balanced _ (push_balanced _ _ _ _ _ (closeTop_balanced s h))
      | exact closeTop_balanced _ (push_balanced _ _ _ _ _ h)
      | exact push_balanced _ _ _ _ _ (closeTop_balanced s h)
      | exact push_balanced _ _ _ _ _ h

theorem processEnd_balanced (cfg : sgml_config) (s : sgml_parser_core)
    (tname : List Char) (line : Nat) (h : balanced s) :
    balanced (processEnd cfg s tname line) := by
  unfold processEnd
  split
  · rename_i i hi
    have hb := closeN_balanced (i + 1) s h
    unfold balanced at *
    rw [reportMissing_events, reportMissing_stack]
    exact hb
  · unfold balanced at *
    rw [handleError_events, handleError_stack]
    exact h

theorem processToken_balanced (cfg : sgml_config) (s : sgml_parser_core)
    (t : sgml_token) (h : balanced s) : balanced (processToken cfg s t) := by
  unfold processToken
  dsimp only
  split_ifs with h1 h2
  · exact h
  · split
    · exact addChild_balanced _ _ (nonstruct_balanced s _ _ rfl rfl h)
    · exact addChild_balanced _ _ (nonstruct_balanced s _ _ rfl rfl h)
    · exact processStart_balanced _ _ _ _ (balanced_lastLine s _ h)
    · exact processEnd_balanced _ _ _ _ (balanced_lastLine s _ h)
  · split
    · exact addChild_balanced _ _ (nonstruct_balanced s _ _ rfl rfl h)
    · exact addChild_balanced _ _ (nonstruct_balanced s _ _ rfl rfl h)
    · exact processStart_balanced _ _ _ _ h
    · exact processEnd_balanced _ _ _ _ h

theorem processTokens_balanced (cfg : sgml_config) :
    ∀ (ts : List sgml_token) (s : sgml_parser_core), balanced s →
    balanced (processTokens cfg s ts) := by
  intro ts
  induction ts with
  | nil => intro s h; exact h
  | cons t ts ih =>
    intro s h
    exact ih _ (processToken_balanced cfg s t h)

/- Which error codes the driver can report. -/

theorem processStart_errors_mem (cfg : sgml_config) (s : sgml_parser_core)
    (tname : List Char) (line : Nat) {e : error_record}
    (he : e ∈ (processStart cfg s tname line).errors) : e ∈ s.errors := by
  rw [processStart_errors] at he
  exact he

theorem processEnd_errors_mem (cfg : sgml_config) (s : sgml_parser_core)
    (tname : List Char) (line : Nat) {e : error_record}
    (he : e ∈ (processEnd cfg s tname line).errors) :
    e ∈ s.errors ∨ e.ecode = dom_code.unmatchedEndTag := by
  unfold processEnd at he
  split at he
  · rcases reportMissing_errors_mem cfg line _ _ e he with h | h
    · rw [closeN_errors] at h
      exact Or.inl h
    · exact Or.inr h
  · exact handleError_errors_mem cfg s _ _ he

theorem processToken_errors_mem (cfg : sgml_config) (s : sgml_parser_core)
    (t : sgml_token) {e : error_record}
    (he : e ∈ (processToken cfg s t).errors) :
    e ∈ s.errors ∨ e.ecode = dom_code.unmatchedEndTag := by
  unfold processToken at he
  dsimp only at he
  split_ifs at he with h1 h2
  · exact Or.inl he
  · split at he
    · rw [addChild_errors] at he; exact Or.inl he
    · rw [addChild_errors] at he; exact Or.inl he
    · exact Or.inl (by have hx := processStart_errors_mem cfg _ _ _ he; simpa using hx)
    · rcases processEnd_errors_mem cfg _ _ _ he with hx | hx
      · exact Or.inl (by simpa using hx)
      · exact Or.inr hx
  · split at he
    · rw [addChild_errors] at he; exact Or.inl he
    · rw [addChild_errors] at he; exact Or.inl he
    · exact Or.inl (processStart_errors_mem _ _ _ _ he)
    · exact processEnd_errors_mem _ _ _ _ he

theorem processTokens_errors_mem (cfg : sgml_config) :
    ∀ (ts : List sgml_token) (s : sgml_parser_core) (e : error_record),
    e ∈ (processTokens cfg s ts).errors →
    e ∈ s.errors ∨ e.ecode = dom_code.unmatchedEndTag := by
  intro ts
  induction ts with
  | nil => intro s e he; exact Or.inl he
  | cons t ts ih =>
    intro s e he
    rcases ih (processToken cfg s t) e he with h | h
    · exact processToken_errors_mem cfg s t h
    · exact Or.inr h

theorem adjFree_reverse {l : List dom_node} (h : adjFree l) : adjFree l.reverse := by
  unfold adjFree at *
  rw [List.chain'_reverse]
  exact List.Chain'.imp (fun a b hab => fun hp => hab ⟨hp.2, hp.1⟩) h

theorem nodesGood_iff {l : List dom_node} : nodesGood l ↔ ∀ n ∈ l, nodeGood n := by
  induction l with
  | nil => simp [nodesGood]
  | cons n rest ih =>
    rw [nodesGood, ih]
    constructor
    · rintro ⟨h1, h2⟩ m hm
      rcases List.mem_cons.mp hm with h | h
      · rw [h]; exact h1
      · exact h2 m h
    · intro hall
      exact ⟨hall n (List.mem_cons_self n rest),
             fun m hm => hall m (List.mem_cons_of_mem n hm)⟩

theorem nodesGood_reverse {l : List dom_node} (h : nodesGood l) :
    nodesGood l.reverse := by
  rw [nodesGood_iff] at *
  intro n hn
  exact h n (List.mem_reverse.mp hn)

theorem pushChild_good {ch : List dom_node} {n : dom_node}
    (hadj : adjFree ch) (hgood : nodesGood ch) (hn : nodeGood n) :
    adjFree (pushChild ch n) ∧ nodesGood (pushChild ch n) := by
  unfold pushChild
  split
  · rename_i t t0 rest
    constructor
    · unfold adjFree at *
      cases rest with
      | nil => simp
      | cons b rest2 =>
        rw [List.chain'_cons] at hadj ⊢
        obtain ⟨h1, h2⟩ := hadj
        exact ⟨fun hp => h1 ⟨rfl, hp.2⟩, h2⟩
    · exact ⟨trivial, hgood.2⟩
  · rename_i hne
    constructor
    · unfold adjFree at *
      cases ch with
      | nil => simp
      | cons b rest =>
        rw [List.chain'_cons]
        refine ⟨?_, hadj⟩
        rintro ⟨hx, hy⟩
        cases n with
        | text t =>
          cases b with
          | text t0 => exact hne t t0 rest rfl rfl
          | element e c => simp [isTextNode] at hy
          | comment c => simp [isTextNode] at hy
        | element e c => simp [isTextNode] at hx
        | comment c => simp [isTextNode] at hx
    · exact ⟨hn, hgood⟩

theorem addChild_good (s : sgml_parser_core) (n : dom_node)
    (hs : coreGood s) (hn : nodeGood n) : coreGood (addChild s n) := by
  obtain ⟨hstack, hadj, hgood⟩ := hs
  unfold addChild
  cases hss : s.stack with
  | nil =>
    obtain ⟨h1, h2⟩ := pushChild_good hadj hgood hn
    exact ⟨by simp, h1, h2⟩
  | cons f rest =>
    have hf := hstack f (by rw [hss]; exact List.mem_cons_self f rest)
    obtain ⟨h1, h2⟩ := pushChild_good hf.1 hf.2 hn
    refine ⟨?_, hadj, hgood⟩
    intro g hg
    rcases List.mem_cons.mp hg with h | h
    · rw [h]; exact ⟨h1, h2⟩
    · exact hstack g (by rw [hss]; exact List.mem_cons_of_mem f h)

theorem closeTop_good (s : sgml_parser_core) (h : coreGood s) :
    coreGood (closeTop s) := by
  unfold closeTop
  cases hss : s.stack with
  | nil => exact h
  | cons f rest =>
    dsimp only
    have hf := h.1 f (by rw [hss]; exact List.mem_cons_self f rest)
    apply addChild_good
    · refine ⟨?_, h.2.1, h.2.2⟩
      intro g hg
      exact h.1 g (by rw [hss]; exact List.mem_cons_of_mem f hg)
    · exact ⟨adjFree_reverse hf.1, nodesGood_reverse hf.2⟩

theorem closeN_good (k : Nat) : ∀ s : sgml_parser_core, coreGood s →
    coreGood (closeN k s) := by
  induction k with
  | zero => intro s h; exact h
  | succ n ih => intro s h; rw [closeN]; exact ih _ (closeTop_good s h)

theorem handleError_good (cfg : sgml_config) (s : sgml_parser_core)
    (c : dom_code) (l : Nat) (h : coreGood s) :
    coreGood (handleError cfg s c l) := by
  unfold coreGood at *
  rw [handleError_stack, handleError_rootChildren]
  exact h

theorem reportMissing_good (cfg : sgml_config) (line : Nat) (k : Nat)
    (s : sgml_parser_core) (h : coreGood s) :
    coreGood (reportMissing cfg line k s) := by
  unfold coreGood at *
  rw [reportMissing_stack, reportMissing_rootChildren]
  exact h

theorem processStart_good (cfg : sgml_config) (s : sgml_parser_core)
    (tname : List Char) (line : Nat) (h : coreGood s) :
    coreGood (processStart cfg s tname line) := by
  have hpush : ∀ s1 : sgml_parser_core, coreGood s1 →
      coreGood ⟨s1.flags, s1.code, ⟨tname, cfg.classify tname, []⟩ :: s1.stack,
        s1.rootChildren,
        if (cfg.classify tname).rawText = true then tname :: s1.parsing else s1.parsing,
        sgml_event.elementOpen tname line :: s1.events, s1.errors, s1.lastLine⟩ := by
    intro s1 h1
    refine ⟨?_, h1.2.1, h1.2.2⟩
    intro g hg
    rcases List.mem_cons.mp hg with hx | hx
    · rw [hx]
      exact ⟨List.chain'_nil, trivial⟩
    · exact h1.1 g hx
  unfold processStart
  dsimp only
  split_ifs <;> split <;> (try split_ifs) <;>
    first
      | exact closeTop_good _ (hpush _ (closeTop_good s h))
      | exact closeTop_good _ (hpush _ h)
      | exact hpush _ (closeTop_good s h)
      | exact hpush _ h

theorem processEnd_good (cfg : sgml_config) (s : sgml_parser_core)
    (tname : List Char) (line : Nat) (h : coreGood s) :
    coreGood (processEnd cfg s tname line) := by
  unfold processEnd
  split
  · rename_i i hi
    exact reportMissing_good cfg line i _ (closeN_good (i + 1) s h)
  · exact handleError_good cfg s _ _ h

theorem coreGood_lastLine (s : sgml_parser_core) (ll : Option Nat)
    (h : coreGood s) :
    coreGood ⟨s.flags, s.code, s.stack, s.rootChildren, s.parsing,
              s.events, s.errors, ll⟩ := h

theorem coreGood_event (s : sgml_parser_core) (ev : sgml_event) (ll : Option Nat)
    (h : coreGood s) :
    coreGood ⟨s.flags, s.code, s.stack, s.rootChildren, s.parsing,
              ev :: s.events, s.errors, ll⟩ := h

theorem processToken_good (cfg : sgml_config) (s : sgml_parser_core)
    (t : sgml_token) (h : coreGood s) : coreGood (processToken cfg s t) := by
  unfold processToken
  dsimp only
  split_ifs with h1 h2
  · exact h
  · split
    · exact addChild_good _ _ (coreGood_event s _ _ h) trivial
    · exact addChild_good _ _ (coreGood_event s _ _ h) trivial
    · exact processStart_good _ _ _ _ (coreGood_lastLine s _ h)
    · exact processEnd_good _ _ _ _ (coreGood_lastLine s _ h)
  · split
    · exact addChild_good _ _ (coreGood_event s _ _ h) trivial
    · exact addChild_good _ _ (coreGood_event s _ _ h) trivial
    · exact processStart_good _ _ _ _ h
    · exact processEnd_good _ _ _ _ h

theorem processTokens_good (cfg : sgml_config) :
    ∀ (ts : List sgml_token) (s : sgml_parser_core), coreGood s →
    coreGood (processTokens cfg s ts) := by
  intro ts
  induction ts with
  | nil => intro s h; exact h
  | cons t ts ih =>
    intro s h
    exact ih _ (processToken_good cfg s t h)

/- Position and line bookkeeping of the token source. -/

theorem mkTag_tpos (pos line : Nat) (content : List Char) :
    (mkTag pos line content).tpos = pos := by
  unfold mkTag; split <;> rfl

theorem mkTag_tline (pos line : Nat) (content : List Char) :
    (mkTag pos line content).tline = line := by
  unfold mkTag; split <;> rfl

theorem scan1_decomp {pos line : Nat} {buf : List Char} {t : sgml_token}
    {p l : Nat} {rest : List Char}
    (h : scan1 pos line buf = some (t, p, l, rest)) :
    t.tpos = pos ∧ t.tline = line ∧
    ∃ consumed, buf = consumed ++ rest ∧ p = pos + consumed.length ∧
      l = line + countNl consumed := by
  match buf with
  | [] => simp [scan1] at h
  | c :: r =>
    by_cases hc : c = '<'
    · rw [scan1, if_pos hc] at h
      cases hs : splitGt r with
      | none => rw [hs] at h; simp at h
      | some q =>
        rw [hs] at h
        simp only [Option.some.injEq, Prod.mk.injEq] at h
        obtain ⟨h1, h2, h3, h4⟩ := h
        have hr := splitGt_eq (show splitGt r = some (q.1, q.2) by rw [hs])
        subst hc
        refine ⟨by rw [← h1, mkTag_tpos], by rw [← h1, mkTag_tline],
                '<' :: q.1 ++ ['>'], ?_, ?_, ?_⟩
        · rw [← h4, hr]
          simp
        · rw [← h2]
          simp
          omega
        · rw [← h3, countNl]
          simp [List.countP_cons, countNl, List.countP_append]
    · rw [scan1, if_neg hc] at h
      by_cases he : restOf (c :: r) = []
      · rw [if_pos he] at h; simp at h
      · rw [if_neg he] at h
        simp only [Option.some.injEq, Prod.mk.injEq] at h
        obtain ⟨h1, h2, h3, h4⟩ := h
        refine ⟨by rw [← h1], by rw [← h1], txtOf (c :: r), ?_, ?_, ?_⟩
        · rw [← h4, txtOf_append_restOf]
        · rw [← h2]
        · rw [← h3]

theorem scan_tok_spec : ∀ (n : Nat) (buf : List Char), buf.length ≤ n →
    ∀ (pos line : Nat),
    (∀ t ∈ (scan pos line buf).toks,
        pos ≤ t.tpos ∧ line ≤ t.tline ∧
        t.tline = line + countNl (buf.take (t.tpos - pos))) ∧
    List.Chain' (fun a b => a.tline ≤ b.tline) (scan pos line buf).toks := by
  intro n
  induction n with
  | zero =>
    intro buf hb pos line
    have hbuf : buf = [] := List.eq_nil_of_length_eq_zero (Nat.le_zero.mp hb)
    subst hbuf
    rw [scan_eq_none (scan1_nil pos line)]
    exact ⟨by simp, List.chain'_nil⟩
  | succ n ih =>
    intro buf hb pos line
    cases h : scan1 pos line buf with
    | none =>
      rw [scan_eq_none h]
      exact ⟨by simp, List.chain'_nil⟩
    | some q =>
      obtain ⟨t, p, l, rest⟩ := q
      rw [scan_eq_some h]
      obtain ⟨htp, htl, consumed, hbuf, hp, hl⟩ := scan1_decomp h
      have hrest : rest.length ≤ n := by
        have := scan1_length_lt h
        omega
      obtain ⟨ihmem, ihchain⟩ := ih rest hrest p l
      constructor
      · intro y hy
        rcases List.mem_cons.mp hy with hx | hx
        · subst hx
          refine ⟨by omega, by omega, ?_⟩
          rw [htp, htl]
          simp [countNl]
        · obtain ⟨hp1, hl1, heq⟩ := ihmem y hx
          refine ⟨by omega, by omega, ?_⟩
          have hidx : y.tpos - pos = consumed.length + (y.tpos - p) := by omega
          have hsplit : buf.take (y.tpos - pos) = consumed ++ rest.take (y.tpos - p) := by
            rw [hbuf, hidx]
            exact List.take_append (y.tpos - p)
          rw [hsplit, countNl_append]
          omega
      · rw [List.chain'_cons']
        refine ⟨?_, ihchain⟩
        intro y hy
        have hym := ihmem y (List.mem_of_mem_head? hy)
        rw [htl]
        omega

/- The incremental-feeding contract of the token source: appending further
input extends the token list without changing the tokens already found. -/

theorem scan_append_aux : ∀ (n : Nat) (buf : List Char), buf.length ≤ n →
    ∀ (pos line : Nat) (more : List Char),
    scan pos line (buf ++ more) =
      ⟨(scan pos line buf).toks ++
         (scan (scan pos line buf).rpos (scan pos line buf).rline
            ((scan pos line buf).rest ++ more)).toks,
       (scan (scan pos line buf).rpos (scan pos line buf).rline
          ((scan pos line buf).rest ++ more)).rpos,
       (scan (scan pos line buf).rpos (scan pos line buf).rline
          ((scan pos line buf).rest ++ more)).rline,
       (scan (scan pos line buf).rpos (scan pos line buf).rline
          ((scan pos line buf).rest ++ more)).rest⟩ := by
  intro n
  induction n with
  | zero =>
    intro buf hb pos line more
    have hbuf : buf = [] := List.eq_nil_of_length_eq_zero (Nat.le_zero.mp hb)
    subst hbuf
    rw [scan_eq_none (scan1_nil pos line)]
    simp
  | succ n ih =>
    intro buf hb pos line more
    cases h : scan1 pos line buf with
    | none =>
      rw [scan_eq_none h]
      simp
    | some q =>
      obtain ⟨t, p, l, rest⟩ := q
      have h2 := scan1_append more h
      rw [scan_eq_some h2, scan_eq_some h]
      have hrest : rest.length ≤ n := by
        have := scan1_length_lt h
        omega
      rw [ih rest hrest p l more]
      simp

theorem scan_append (pos line : Nat) (buf more : List Char) :
    scan pos line (buf ++ more) =
      ⟨(scan pos line buf).toks ++
         (scan (scan pos line buf).rpos (scan pos line buf).rline
            ((scan pos line buf).rest ++ more)).toks,
       (scan (scan pos line buf).rpos (scan pos line buf).rline
          ((scan pos line buf).rest ++ more)).rpos,
       (scan (scan pos line buf).rpos (scan pos line buf).rline
          ((scan pos line buf).rest ++ more)).rline,
       (scan (scan pos line buf).rpos (scan pos line buf).rline
          ((scan pos line buf).rest ++ more)).rest⟩ :=
  scan_append_aux buf.length buf le_rfl pos line more

/- Composition of feeds: a non-final feed followed by another feed behaves
like one feed of the concatenated buffers. -/

theorem parse_sgml_comp (cfg : sgml_config) (s : sgml_parser_full)
    (c1 c2 : List Char) (b : Bool) :
    parse_sgml cfg (parse_sgml cfg s c1 false) c2 b
      = parse_sgml cfg s (c1 ++ c2) b := by
  unfold parse_sgml
  dsimp only
  rw [if_neg (by simp : ¬(false = true))]
  dsimp only
  rw [← List.append_assoc, scan_append s.pendPos s.pendLine (s.pending ++ c1) c2]
  dsimp only
  rw [processTokens_append]

theorem feedChunks_join (cfg : sgml_config) : ∀ (cs : List (List Char))
    (s : sgml_parser_full),
    feedChunks cfg s cs = parse_sgml cfg s cs.join true := by
  intro cs
  induction cs with
  | nil => intro s; rfl
  | cons c cs ih =>
    intro s
    cases cs with
    | nil =>
      show parse_sgml cfg s c true = parse_sgml cfg s ([c].join) true
      simp
    | cons c2 cs2 =>
      show feedChunks cfg (parse_sgml cfg s c false) (c2 :: cs2)
        = parse_sgml cfg s ((c :: c2 :: cs2).join) true
      rw [ih (parse_sgml cfg s c false), parse_sgml_comp]
      simp

/- End-of-input behaviour of the final chunk. -/

theorem finishUp_code_ne (cfg : sgml_config) (s : sgml_parser_full)
    (h : s.core.code ≠ dom_code.ok) : finishUp cfg s = s := by
  unfold finishUp
  rw [if_pos h]

theorem finishUp_spec (cfg : sgml_config) (s : sgml_parser_full)
    (hok : s.core.code = dom_code.ok) :
    (finishUp cfg s).core.stack = [] ∧
    (balanced s.core →
      openCount (finishUp cfg s).core.events
        = closeCount (finishUp cfg s).core.events) ∧
    (∀ e ∈ (finishUp cfg s).core.errors,
      e ∈ s.core.errors ∨ e.ecode = dom_code.unmatchedEndTag) ∧
    (coreGood s.core → coreGood (finishUp cfg s).core) := by
  unfold finishUp
  rw [if_neg (by simp [hok])]
  dsimp only
  split_ifs with hp
  · refine ⟨closeN_all _ _ le_rfl, ?_, ?_, ?_⟩
    · intro hb
      have hb2 := closeN_balanced s.core.stack.length s.core hb
      unfold balanced at hb2
      rw [closeN_all _ _ le_rfl] at hb2
      simpa using hb2
    · intro e he
      rw [closeN_errors] at he
      exact Or.inl he
    · intro hg
      exact closeN_good _ _ hg
  · refine ⟨closeN_all _ _ le_rfl, ?_, ?_, ?_⟩
    · intro hb
      have hb1 := processToken_balanced cfg s.core
        ⟨tok_kind.text s.pending, s.pendPos, s.pendLine⟩ hb
      have hb2 := closeN_balanced
        (processToken cfg s.core
          ⟨tok_kind.text s.pending, s.pendPos, s.pendLine⟩).stack.length _ hb1
      unfold balanced at hb2
      rw [closeN_all _ _ le_rfl] at hb2
      simpa using hb2
    · intro e he
      rw [closeN_errors] at he
      exact processToken_errors_mem cfg s.core _ he
    · intro hg
      exact closeN_good _ _ (processToken_good cfg s.core _ hg)

theorem initCore_good (flags : sgml_parser_flags) : coreGood (initCore flags) :=
  ⟨by simp [initCore], List.chain'_nil, trivial⟩

theorem parse_sgml_good (cfg : sgml_config) (s : sgml_parser_full)
    (buf : List Char) (b : Bool) (h : coreGood s.core) :
    coreGood (parse_sgml cfg s buf b).core := by
  unfold parse_sgml
  dsimp only
  split_ifs with hb
  · unfold finishUp
    split_ifs with hcode hp
    · exact processTokens_good cfg _ s.core h
    · exact closeN_good _ _ (processTokens_good cfg _ s.core h)
    · exact closeN_good _ _
        (processToken_good cfg _ _ (processTokens_good cfg _ s.core h))
  · exact processTokens_good cfg _ s.core h

/- The claims. -/

/-- C1: feeding a complete document split into chunks — every call with the
final flag false except the last — yields exactly the same parser instance
(same tree in rootChildren, same event sequence, same errors, same code) as
one parse_sgml call on the whole document with the final flag set. -/
theorem sgml_incremental_chunks_eq (cfg : sgml_config) (s : sgml_parser_full)
    (cs : List (List Char)) :
    feedChunks cfg s cs = parse_sgml cfg s cs.join true :=
  feedChunks_join cfg cs s

/-- C2: an end-tag token searches the element stack top-down under the
classifier case rule.  A match at 0-based distance i from the top (depth
d = i + 1) pops and closes exactly the frames above and including the
match, top first, leaving the rest and the OK code; with no match the
stack and events are untouched, the code stays OK, and with error
reporting enabled one recoverable unmatched-end-tag error is recorded. -/
theorem sgml_end_tag_recovery (cfg : sgml_config) (s : sgml_parser_core)
    (tname : List Char) (line : Nat)
    (hok : s.code = dom_code.ok)
    (hcb : ∀ c l, cfg.errorFunc c l = dom_code.ok) :
    (∀ i, findMatch tname s.stack = some i →
        (∃ f, s.stack.get? i = some f ∧ frameMatches f tname = true) ∧
        (∀ (j : Nat) (f : stack_frame), j < i → s.stack.get? j = some f →
            frameMatches f tname = false) ∧
        (processEnd cfg s tname line).stack.map stack_frame.fname
          = (s.stack.map stack_frame.fname).drop (i + 1) ∧
        (processEnd cfg s tname line).events
          = (((s.stack.take (i + 1)).map stack_frame.fname).map
              sgml_event.elementClose).reverse ++ s.events ∧
        (processEnd cfg s tname line).code = dom_code.ok) ∧
    (findMatch tname s.stack = none →
        (processEnd cfg s tname line).stack = s.stack ∧
        (processEnd cfg s tname line).events = s.events ∧
        (processEnd cfg s tname line).code = dom_code.ok ∧
        (s.flags.detectErrors = true →
          (processEnd cfg s tname line).errors
            = ⟨dom_code.unmatchedEndTag, line⟩ :: s.errors)) := by
  constructor
  · intro i hi
    have hlt := findMatch_lt hi
    have hspec := closeN_spec (i + 1) s (by omega)
    refine ⟨findMatch_found hi, findMatch_earlier hi, ?_, ?_, ?_⟩
    · unfold processEnd
      rw [hi]
      dsimp only
      rw [reportMissing_stack]
      exact hspec.1
    · unfold processEnd
      rw [hi]
      dsimp only
      rw [reportMissing_events]
      exact hspec.2
    · unfold processEnd
      rw [hi]
      dsimp only
      rw [reportMissing_code_cb cfg line hcb, closeN_code]
      exact hok
  · intro hn
    unfold processEnd
    rw [hn]
    dsimp only
    refine ⟨handleError_stack cfg s _ _, handleError_events cfg s _ _, ?_, ?_⟩
    · rw [handleError_code_cb cfg s _ _ (hcb _ _)]
      exact hok
    · intro hde
      rw [handleError_detect cfg s _ _ hok hde (hcb _ _)]

/-- C2 witness: on the stack i over b, the end tag b closes both frames (i
first, then b) leaving the stack empty, and an end tag z matching nothing
leaves the stack unchanged and records one recoverable error. -/
theorem sgml_end_tag_recovery_witness :
    (processEnd cfg0 st2 ['b'] 5).stack.map stack_frame.fname
      = (st2.stack.map stack_frame.fname).drop 2 ∧
    (processEnd cfg0 st2 ['b'] 5).events
      = (((st2.stack.take 2).map stack_frame.fname).map
          sgml_event.elementClose).reverse ++ st2.events ∧
    (processEnd cfg0 st2 ['z'] 5).stack = st2.stack ∧
    (processEnd cfg0 st2 ['z'] 5).errors
      = ⟨dom_code.unmatchedEndTag, 5⟩ :: st2.errors := by
  have h := sgml_end_tag_recovery cfg0 st2 ['b'] 5 rfl (fun c l => rfl)
  have h2 := sgml_end_tag_recovery cfg0 st2 ['z'] 5 rfl (fun c l => rfl)
  have hb := h.1 1 (by decide)
  have hz := h2.2 (by decide)
  exact ⟨hb.2.2.1, hb.2.2.2.1, hz.1, hz.2.2.2 rfl⟩

/-- C3: a feed with the final flag set that completes with code OK leaves no
open frame (all remaining frames were force-closed top-to-bottom), its
event stream is exactly balanced, and no unexpected-end-of-input error was
added for the forced close. -/
theorem sgml_final_chunk_close (cfg : sgml_config) (s : sgml_parser_full)
    (buf : List Char) (hbal : balanced s.core)
    (hok : (parse_sgml cfg s buf true).core.code = dom_code.ok) :
    (parse_sgml cfg s buf true).core.stack = [] ∧
    openCount (parse_sgml cfg s buf true).core.events
      = closeCount (parse_sgml cfg s buf true).core.events ∧
    (∀ e ∈ (parse_sgml cfg s buf true).core.errors,
      e.ecode = dom_code.unexpectedEndOfInput → e ∈ s.core.errors) := by
  unfold parse_sgml at hok ⊢
  dsimp only at hok ⊢
  rw [if_pos rfl] at hok ⊢
  by_cases hc : (processTokens cfg s.core
      (scan s.pendPos s.pendLine (s.pending ++ buf)).toks).code = dom_code.ok
  · have hspec := finishUp_spec cfg
      ⟨processTokens cfg s.core (scan s.pendPos s.pendLine (s.pending ++ buf)).toks,
       (scan s.pendPos s.pendLine (s.pending ++ buf)).rest,
       (scan s.pendPos s.pendLine (s.pending ++ buf)).rpos,
       (scan s.pendPos s.pendLine (s.pending ++ buf)).rline⟩ hc
    refine ⟨hspec.1, hspec.2.1 (processTokens_balanced cfg _ s.core hbal), ?_⟩
    intro e he hcode
    rcases hspec.2.2.1 e he with h | h
    · rcases processTokens_errors_mem cfg _ s.core e h with h2 | h2
      · exact h2
      · rw [h2] at hcode
        simp at hcode
    · rw [h] at hcode
      simp at hcode
  · rw [finishUp_code_ne cfg _ hc] at hok
    exact absurd hok hc

/-- C3 witness: the truncated document b i x fed as one final chunk closes
both open frames, balances the events and reports nothing. -/
theorem sgml_final_chunk_close_witness :
    (parse_sgml cfg0 (initFull flags0) doc3 true).core.stack = [] ∧
    openCount (parse_sgml cfg0 (initFull flags0) doc3 true).core.events
      = closeCount (parse_sgml cfg0 (initFull flags0) doc3 true).core.events := by
  have h := sgml_final_chunk_close cfg0 (initFull flags0) doc3
    (by exact rfl) (by decide)
  exact ⟨h.1, h.2.1⟩

/-- C4: when the diagnostics callback answers a non-OK code for a reported
error, the parser records that code, every further token of the feed is
ignored, and any parse_sgml call on the resulting instance returns exactly
that code. -/
theorem sgml_callback_abort (cfg : sgml_config) (co : sgml_parser_core)
    (c : dom_code) (l : Nat)
    (hok : co.code = dom_code.ok) (hde : co.flags.detectErrors = true)
    (hcb : cfg.errorFunc c l ≠ dom_code.ok) :
    (handleError cfg co c l).code = cfg.errorFunc c l ∧
    (∀ ts, processTokens cfg (handleError cfg co c l) ts = handleError cfg co c l) ∧
    (∀ (pend : List Char) (pos line : Nat) (buf : List Char) (b : Bool),
      (parse_sgml cfg ⟨handleError cfg co c l, pend, pos, line⟩ buf b).core.code
        = cfg.errorFunc c l) := by
  have hcode : (handleError cfg co c l).code = cfg.errorFunc c l := by
    unfold handleError
    rw [if_neg (by simp [hok]), if_pos hde, if_neg hcb]
  have hne : (handleError cfg co c l).code ≠ dom_code.ok := by
    rw [hcode]
    exact hcb
  refine ⟨hcode, ?_, ?_⟩
  · intro ts
    exact processTokens_skip cfg _ hne ts
  · intro pend pos line buf b
    unfold parse_sgml
    dsimp only
    rw [processTokens_skip cfg _ hne]
    split_ifs with hb
    · rw [finishUp_code_ne cfg _ hne]
      exact hcode
    · exact hcode

/-- C4 witness: an always-aborting callback makes the parser record
CallbackAborted, ignore the rest of the input and return that code. -/
theorem sgml_callback_abort_witness :
    (handleError cfgAbort (initCore flags0) dom_code.unmatchedEndTag 0).code
      = dom_code.callbackAborted ∧
    (parse_sgml cfgAbort
        ⟨handleError cfgAbort (initCore flags0) dom_code.unmatchedEndTag 0,
         [], 0, 0⟩ ['<', 'b', '>'] true).core.code
      = dom_code.callbackAborted := by
  have h := sgml_callback_abort cfgAbort (initCore flags0)
    dom_code.unmatchedEndTag 0 rfl rfl (by decide)
  exact ⟨h.1, h.2.2 [] 0 0 ['<', 'b', '>'] true⟩

/-- C5: the line getter answers 0 on a fresh parser, always 0 when line
counting is disabled, and the line of the most recently processed token
when line counting is enabled and some token has been processed. -/
theorem sgml_line_number (flags : sgml_parser_flags) (cfg : sgml_config)
    (ts : List sgml_token) (t : sgml_token) :
    get_sgml_parser_line_number (initFull flags) = 0 ∧
    (flags.countLines = false →
      get_sgml_parser_line_number
        ⟨processTokens cfg (initCore flags) ts, [], 0, 0⟩ = 0) ∧
    (flags.countLines = true →
      (processTokens cfg (initCore flags) (ts ++ [t])).code = dom_code.ok →
      get_sgml_parser_line_number
        ⟨processTokens cfg (initCore flags) (ts ++ [t]), [], 0, 0⟩ = t.tline) := by
  refine ⟨?_, ?_, ?_⟩
  · unfold get_sgml_parser_line_number initFull initCore
    split_ifs <;> rfl
  · intro hcl
    simp [get_sgml_parser_line_number, initCore, hcl]
  · intro hcl hok
    have hstep : processTokens cfg (initCore flags) (ts ++ [t])
        = processToken cfg (processTokens cfg (initCore flags) ts) t := by
      rw [processTokens_append]
      rfl
    rw [hstep] at hok ⊢
    have hpre : (processTokens cfg (initCore flags) ts).code = dom_code.ok :=
      processToken_code_mono _ _ _ hok
    have hfl : (processTokens cfg (initCore flags) ts).flags.countLines = true := by
      rw [processTokens_flags]
      exact hcl
    have hll := processToken_lastLine_set cfg _ t hpre hfl
    have hfl2 : (processToken cfg (processTokens cfg (initCore flags) ts) t).flags.countLines
        = true := by
      rw [processToken_flags]
      exact hfl
    unfold get_sgml_parser_line_number
    dsimp only
    rw [if_pos hfl2, hll]
    rfl

/-- C5 witness: with counting off the getter answers 0 after a token on line
3; with counting on it answers that token line. -/
theorem sgml_line_number_witness :
    get_sgml_parser_line_number
      ⟨processTokens cfg0 (initCore flagsOff) [⟨tok_kind.text ['x'], 0, 3⟩],
       [], 0, 0⟩ = 0 ∧
    get_sgml_parser_line_number
      ⟨processTokens cfg0 (initCore flags0)
         ([⟨tok_kind.text ['x'], 0, 0⟩] ++ [⟨tok_kind.text ['y'], 1, 3⟩]),
       [], 0, 0⟩ = 3 := by
  have h1 := sgml_line_number flagsOff cfg0 [⟨tok_kind.text ['x'], 0, 3⟩]
    ⟨tok_kind.text ['x'], 0, 3⟩
  have h2 := sgml_line_number flags0 cfg0 [⟨tok_kind.text ['x'], 0, 0⟩]
    ⟨tok_kind.text ['y'], 1, 3⟩
  exact ⟨h1.2.1 rfl, h2.2.2 rfl (by decide)⟩

/-- C6: every tree the parser builds is merge-clean — no children list, in
any frame, under the virtual root or inside any finished element node,
holds two adjacent text nodes — while a comment between two text tokens
keeps them separate and two directly adjacent text tokens merge into one
text node. -/
theorem sgml_text_merging (cfg : sgml_config) (flags : sgml_parser_flags)
    (doc : List Char) :
    coreGood (parse_sgml cfg (initFull flags) doc true).core ∧
    (processTokens cfg0 (initCore flags0)
        [⟨tok_kind.text ['A'], 0, 0⟩, ⟨tok_kind.comment ['c'], 1, 0⟩,
         ⟨tok_kind.text ['B'], 2, 0⟩]).rootChildren
      = [dom_node.text ['B'], dom_node.comment ['c'], dom_node.text ['A']] ∧
    (processTokens cfg0 (initCore flags0)
        [⟨tok_kind.text ['A'], 0, 0⟩, ⟨tok_kind.text ['B'], 1, 0⟩]).rootChildren
      = [dom_node.text ['A', 'B']] := by
  refine ⟨parse_sgml_good cfg (initFull flags) doc true (initCore_good flags), rfl, rfl⟩

/-- C7: over a whole-document scan the token lines are monotonically
non-decreasing, and each token's line equals the number of newline
characters in the input before the token's position. -/
theorem sgml_token_lines (doc : List Char) :
    List.Chain' (fun a b => a.tline ≤ b.tline) (scan 0 0 doc).toks ∧
    ∀ t ∈ (scan 0 0 doc).toks, t.tline = countNl (doc.take t.tpos) := by
  obtain ⟨hmem, hchain⟩ := scan_tok_spec doc.length doc le_rfl 0 0
  refine ⟨hchain, ?_⟩
  intro t ht
  have h := (hmem t ht).2.2
  simpa using h

/-- C9: writing the checked property through input_put is a no-op for a
control that is neither a checkbox nor a radio button; otherwise it sets
exactly the form state's state field to the SEE_ToUint32 image of the
written value, leaving the control, the link and the state's value field
untouched. -/
theorem input_put_checked_spec {V : Type} (toStr : V → Option (List Char))
    (toUint32 : V → Nat) (strToUnicode : List Char → Nat)
    (atoLong : List Char → Int) (lk : Option link_rec)
    (fc : form_control) (fs : form_state) (val : V) :
    (fc.ftype ≠ form_type.FC_CHECKBOX → fc.ftype ≠ form_type.FC_RADIO →
      input_put toStr toUint32 strToUnicode atoLong lk input_prop.checked fc fs val
        = (fc, fs, lk)) ∧
    (fc.ftype = form_type.FC_CHECKBOX ∨ fc.ftype = form_type.FC_RADIO →
      input_put toStr toUint32 strToUnicode atoLong lk input_prop.checked fc fs val
        = (fc, ⟨toUint32 val, fs.value⟩, lk)) := by
  constructor
  · intro h1 h2
    unfold input_put
    rw [if_pos ⟨h1, h2⟩]
  · intro h
    unfold input_put
    rw [if_neg (by rcases h with h | h <;> simp [h])]

/-- C9 witness: on a checkbox the write stores the converted value 7 and
changes nothing else; on a text control it changes nothing at all. -/
theorem input_put_checked_witness :
    input_put (fun (_ : Unit) => (none : Option (List Char))) (fun _ => 7)
        (fun _ => 0) (fun _ => 0) none input_prop.checked fcChk fs0 ()
      = (fcChk, ⟨7, fs0.value⟩, none) ∧
    input_put (fun (_ : Unit) => (none : Option (List Char))) (fun _ => 7)
        (fun _ => 0) (fun _ => 0) none input_prop.checked fcTxt fs0 ()
      = (fcTxt, fs0, none) := by
  have h1 := input_put_checked_spec (fun (_ : Unit) => (none : Option (List Char)))
    (fun _ => 7) (fun _ => 0) (fun _ => 0) none fcChk fs0 ()
  have h2 := input_put_checked_spec (fun (_ : Unit) => (none : Option (List Char)))
    (fun _ => 7) (fun _ => 0) (fun _ => 0) none fcTxt fs0 ()
  exact ⟨h1.2 (Or.inl rfl), h2.1 (by decide) (by decide)⟩

/-- C10: js_get_form_control_object yields an object exactly for the ten
input-like control types and NULL for textarea and select, so the item and
namedItem element lookups answer undefined whenever the control they reach
is a textarea or a select. -/
theorem js_form_control_object_spec :
    (∀ (ft : form_type) (fs : form_state),
      (js_get_form_control_object ft fs).isSome = true ↔
        ft ∈ [form_type.FC_TEXT, form_type.FC_PASSWORD, form_type.FC_FILE,
              form_type.FC_CHECKBOX, form_type.FC_RADIO, form_type.FC_SUBMIT,
              form_type.FC_IMAGE, form_type.FC_RESET, form_type.FC_BUTTON,
              form_type.FC_HIDDEN]) ∧
    (∀ (fsOf : form_control → form_state) (items : List form_control)
        (i : Nat) (fc : form_control), items.get? i = some fc →
      fc.ftype = form_type.FC_TEXTAREA ∨ fc.ftype = form_type.FC_SELECT →
      js_form_elems_item fsOf items (i : Int) = none) ∧
    (∀ (fsOf : form_control → form_state) (qname : List Char)
        (items : List form_control) (fc : form_control),
      items.find? (matchName qname) = some fc →
      fc.ftype = form_type.FC_TEXTAREA ∨ fc.ftype = form_type.FC_SELECT →
      js_form_elems_namedItem fsOf qname items = none) := by
  refine ⟨?_, ?_, ?_⟩
  · intro ft fs
    cases ft <;> simp [js_get_form_control_object]
  · intro fsOf items
    induction items with
    | nil => intro i fc h; simp at h
    | cons g rest ih =>
      intro i fc h hty
      match i with
      | 0 =>
        have hg : g = fc := by simpa using h
        subst hg
        rcases hty with h1 | h1 <;>
          simp [js_form_elems_item, js_get_form_control_object, h1]
      | Nat.succ j =>
        have h' : rest.get? j = some fc := by simpa using h
        have hne : ¬(((j + 1 : Nat) : Int) = 0) := by omega
        have hsub : ((j + 1 : Nat) : Int) - 1 = (j : Int) := by omega
        simp only [js_form_elems_item]
        rw [if_neg hne, hsub]
        exact ih j fc h' hty
  · intro fsOf qname items
    induction items with
    | nil => intro fc h; simp at h
    | cons g rest ih =>
      intro fc h hty
      by_cases hm : matchName qname g
      · have hg : g = fc := by
          have := List.find?_cons_of_pos rest hm
          rw [this] at h
          simpa using h
        subst hg
        rcases hty with h1 | h1 <;>
          simp [js_form_elems_namedItem, hm, js_get_form_control_object, h1]
      · have h' : rest.find? (matchName qname) = some fc := by
          have := List.find?_cons_of_neg rest (by simpa using hm)
          rw [this] at h
          exact h
        simp only [js_form_elems_namedItem]
        rw [if_neg (by simpa using hm)]
        exact ih fc h' hty

/-- C10 witness: a one-element list holding a textarea named a answers
undefined for item 0 and namedItem a, while a checkbox yields an object. -/
theorem js_form_control_object_witness :
    js_form_elems_item (fun _ => fs0) [fcTA] ((0 : Nat) : Int) = none ∧
    js_form_elems_namedItem (fun _ => fs0) ['a'] [fcTA] = none ∧
    (js_get_form_control_object fcChk.ftype fs0).isSome = true := by
  have h := js_form_control_object_spec
  refine ⟨h.2.1 (fun _ => fs0) [fcTA] 0 fcTA rfl (Or.inl rfl),
          h.2.2 (fun _ => fs0) ['a'] [fcTA] fcTA (by decide) (Or.inl rfl),
          (h.1 fcChk.ftype fs0).mpr (by decide)⟩

end Elinks
